import Mathlib

/-
Verification of the garray ordered-container core:
`src/g/container/garray/garray_normal_int.go` (IntArray) and
`src/g/container/garray/garray_sorted_string.go` (SortedStringArray).

Modelling conventions:
- A Go slice of ints / strings is a `List Int` / `List String`; machine-int
  arithmetic never overflows in the ranges exercised here, so Go `int` is
  modelled by `Int` (indices that are provably non-negative by `Nat`).
- The rwmutex lock only serialises access and the safe-mode copies only
  affect aliasing, not content; both are dropped, every operation acts on
  the value of the backing list.  Where safe/unsafe mode return the same
  content (Range, SubSlice, Slice) we model the content.
- An unchecked Go index or slice expression whose bounds can actually be
  violated on the operation modelled is made explicit: the function returns
  `Option`, `none` standing for the runtime "index out of range" panic.
  Indices that are in bounds at every reachable call are read with `getD`.
- Loops are modelled by structural recursion on a fuel argument; every
  caller passes fuel strictly larger than the number of iterations the loop
  can perform (the spec lemmas carry that bound as a hypothesis, and each
  top-level wrapper instantiates fuel satisfying it).
- `grand.Intn` / `grand.Perm` draw from a process-wide random source; the
  permutation consumed by `Rands` is taken as an explicit argument.
-/

/-- Go strings.Compare: lexicographic comparison returning -1, 0 or 1.
UTF-8 byte order coincides with code-point order, so comparing the
character lists of the two strings is faithful. -/
def charsCompare : List Char → List Char → Int
  | [], [] => 0
  | [], _ :: _ => -1
  | _ :: _, [] => 1
  | a :: as, b :: bs => if a < b then -1 else if b < a then 1 else charsCompare as bs

/-- The comparator installed by every SortedStringArray constructor
(garray_sorted_string.go lines 45-47): strings.Compare. -/
def strCompare (v1 v2 : String) : Int := charsCompare v1.data v2.data

/-- The sorted string array: backing list, uniqueness flag (gtype.Bool) and
the comparator fixed at construction.  The rwmutex is dropped (see header). -/
structure SortedStringArray where
  array : List String
  unique : Bool
  comparator : String → String → Int

namespace SortedStringArray

/-- The loop of binSearch (garray_sorted_string.go lines 353-369).  Go keeps
`min`, `max` as ints; `min` starts at 0 and only grows, so it is a `Nat`,
while `max` can become -1 and stays `Int`.  Inside the loop `0 ≤ min ≤ max`,
so Go `(min+max)/2` is the natural-number division modelled here.  `mid` and
`cmp` hold the last compared index and comparison, returned when the loop
exits.  fuel bounds the iterations; callers pass enough for the loop to
reach its exit condition. -/
def binSearchLoop (cmpf : String → String → Int) (arr : List String) (value : String) :
    Nat → Nat → Int → Nat → Int → Nat × Int
  | 0, _, _, mid, cmp => (mid, cmp)
  | fuel + 1, mn, mx, mid, cmp =>
    if (mn : Int) ≤ mx then
      let m := (mn + mx.toNat) / 2
      let c := cmpf value (arr.getD m "")
      if c < 0 then binSearchLoop cmpf arr value fuel mn ((m : Int) - 1) m c
      else if c > 0 then binSearchLoop cmpf arr value fuel (m + 1) mx m c
      else (m, c)
    else (mid, cmp)

/-- binSearch (garray_sorted_string.go lines 345-370): `(-1, -2)` on an empty
array, otherwise the loop from `min = 0`, `max = len-1` (initial `mid = 0`,
`cmp = -2`).  The lock parameter is dropped.  The loop runs at most `len`
iterations, so fuel `len + 1` suffices. -/
def binSearch (cmpf : String → String → Int) (arr : List String) (value : String) :
    Int × Int :=
  if arr.length = 0 then (-1, -2)
  else
    let r := binSearchLoop cmpf arr value (arr.length + 1) 0 ((arr.length : Int) - 1) 0 (-2)
    ((r.1 : Int), r.2)

/-- One iteration of the Add loop body (garray_sorted_string.go lines 96-111):
locate the value, skip it when unique and exact match, append when the array
was empty (index -1), otherwise splice before or after the located index. -/
def addOne (a : SortedStringArray) (value : String) : SortedStringArray :=
  let r := binSearch a.comparator a.array value
  if a.unique && (r.2 == 0) then a
  else if r.1 < 0 then { a with array := a.array ++ [value] }
  else
    let index := if r.2 > 0 then r.1 + 1 else r.1
    { a with array := a.array.take index.toNat ++ value :: a.array.drop index.toNat }

/-- Add (garray_sorted_string.go lines 90-113): each value of the variadic
argument processed in order. -/
def Add (a : SortedStringArray) (values : List String) : SortedStringArray :=
  values.foldl addOne a

/-- Search (garray_sorted_string.go lines 333-338). -/
def Search (a : SortedStringArray) (value : String) : Int :=
  let r := binSearch a.comparator a.array value
  if r.2 = 0 then r.1 else -1

/-- The loop of the sorted Unique (garray_sorted_string.go lines 387-397):
break when `i == len-1` (an int comparison, false on an empty array where
`len-1` is -1), otherwise compare positions `i` and `i+1` — an unchecked
access that panics when `i+1` is out of range (`none`) — and either remove
position `i+1` or advance. -/
def uniqueSortedLoop (cmpf : String → String → Int) :
    Nat → List String → Nat → Option (List String)
  | 0, arr, _ => some arr
  | fuel + 1, arr, i =>
    if (i : Int) == (arr.length : Int) - 1 then some arr
    else if i + 1 < arr.length then
      if cmpf (arr.getD i "") (arr.getD (i + 1) "") == 0 then
        uniqueSortedLoop cmpf fuel (arr.eraseIdx (i + 1)) i
      else uniqueSortedLoop cmpf fuel arr (i + 1)
    else none

/-- Unique, sorted variant (garray_sorted_string.go lines 385-400).  Each
iteration either removes an element or advances `i`, so at most `len`
iterations run and fuel `len + 1` suffices. -/
def Unique (a : SortedStringArray) : Option SortedStringArray :=
  (uniqueSortedLoop a.comparator (a.array.length + 1) a.array 0).map
    fun arr => { a with array := arr }

/-- SetUnique (garray_sorted_string.go lines 375-382). -/
def SetUnique (a : SortedStringArray) (unique : Bool) : Option SortedStringArray :=
  let oldUnique := a.unique
  let a2 := { a with unique := unique }
  if unique && (oldUnique != unique) then Unique a2 else some a2

/-- The loop of Rands (garray_sorted_string.go lines 499-504): range over the
random permutation, write each sampled element into the result buffer at
position `i` — unchecked, panics (`none`) when `i` is outside the buffer,
as happens for `size = 0` on a non-empty array — and break after the write
once `i == size-1`. -/
def randsLoop (arr : List String) (size : Int) :
    List Nat → List String → Nat → Option (List String)
  | [], buf, _ => some buf
  | v :: rest, buf, i =>
    if i < buf.length ∧ v < arr.length then
      let buf2 := buf.set i (arr.getD v "")
      if (i : Int) == size - 1 then some buf2
      else randsLoop arr size rest buf2 (i + 1)
    else none

/-- Rands (garray_sorted_string.go lines 492-506).  `perm` stands for
`grand.Perm(len(a.array))`; `make([]string, size)` is the `replicate`
buffer (a negative size would make `make` panic: `none`). -/
def Rands (a : SortedStringArray) (size : Int) (perm : List Nat) : Option (List String) :=
  let size2 := if size > (a.array.length : Int) then (a.array.length : Int) else size
  if size2 < 0 then none
  else randsLoop a.array size2 perm (List.replicate size2.toNat "") 0

end SortedStringArray

namespace IntArray

/-- The inner loop of the unsorted Unique (garray_normal_int.go lines
426-430): scan `j` upward, removing `a.array[j]` whenever it equals
`a.array[i]`.  Note the Go loop increments `j` even after a removal, so the
element shifted into position `j` is skipped.  Removal is on a bounds-checked
`j < len`, and `i < j` at every call, so the `getD` reads are in bounds. -/
def uniqueInner : Nat → List Int → Nat → Nat → List Int
  | 0, arr, _, _ => arr
  | fuel + 1, arr, i, j =>
    if j < arr.length then
      if arr.getD i 0 == arr.getD j 0 then uniqueInner fuel (arr.eraseIdx j) i (j + 1)
      else uniqueInner fuel arr i (j + 1)
    else arr

/-- The outer loop of the unsorted Unique (garray_normal_int.go lines
425-431): `i` from 0 while `i < len-1`, rescanning after each inner pass. -/
def uniqueOuter : Nat → List Int → Nat → List Int
  | 0, arr, _ => arr
  | fuel + 1, arr, i =>
    if (i : Int) < (arr.length : Int) - 1 then
      uniqueOuter fuel (uniqueInner (arr.length + 1) arr i (i + 1)) (i + 1)
    else arr

/-- Unique (garray_normal_int.go lines 423-434).  The inner loop runs at most
`len - j` iterations and the outer at most `len`, so fuel `len + 1` is
enough for each. -/
def Unique (arr : List Int) : List Int := uniqueOuter (arr.length + 1) arr 0

end IntArray

/-- SubSlice (garray_normal_int.go lines 310-345 and, line for line the same
logic over strings, garray_sorted_string.go lines 255-290).  The Go `nil`
returns are the empty list; the safe-mode copy and the unsafe-mode subslice
hold the same elements, both `arr[offset:end]` after the clamps. -/
def subSliceCore {α : Type} (arr : List α) (offset : Int) (length? : Option Int) : List α :=
  let n : Int := arr.length
  let size : Int := length?.getD n
  if offset > n then []
  else
    let offset1 := if offset < 0 then n + offset else offset
    if offset1 < 0 then []
    else
      let offset2 := if size < 0 then offset1 + size else offset1
      let size2 := if size < 0 then -size else size
      if offset2 < 0 then []
      else
        let stop := offset2 + size2
        let size3 := if stop > n then n - offset2 else size2
        (arr.drop offset2.toNat).take size3.toNat

/-- IntArray.SubSlice (garray_normal_int.go lines 310-345). -/
def IntArray.SubSlice (arr : List Int) (offset : Int) (length? : Option Int) : List Int :=
  subSliceCore arr offset length?

/-- SortedStringArray.SubSlice (garray_sorted_string.go lines 255-290). -/
def SortedStringArray.SubSlice (a : SortedStringArray) (offset : Int)
    (length? : Option Int) : List String :=
  subSliceCore a.array offset length?

/-- Range (garray_normal_int.go lines 274-295).  The final slice expression
`a.array[start:offsetEnd]` is unchecked; when `offsetEnd` is negative (a
given end below a negative start) it panics, modelled as `none`. -/
def IntArray.Range (arr : List Int) (start : Int) (end? : Option Int) : Option (List Int) :=
  let n : Int := arr.length
  let offsetEnd : Int :=
    match end? with
    | some e => if e < n then e else n
    | none => n
  if start > offsetEnd then some []
  else
    let start2 := if start < 0 then 0 else start
    if 0 ≤ start2 ∧ start2 ≤ offsetEnd ∧ offsetEnd ≤ n then
      some ((arr.drop start2.toNat).take (offsetEnd - start2).toNat)
    else none

/-- The loop of Fill (garray_normal_int.go lines 484-490): `i` from the
clamped start while `i < startIndex+num`, appending once `i` passes the
current last index and overwriting otherwise. -/
def IntArray.fillLoop : Nat → List Int → Nat → Nat → Int → List Int
  | 0, arr, _, _, _ => arr
  | fuel + 1, arr, i, stop, value =>
    if i < stop then
      if (i : Int) > (arr.length : Int) - 1 then
        IntArray.fillLoop fuel (arr ++ [value]) (i + 1) stop value
      else IntArray.fillLoop fuel (arr.set i value) (i + 1) stop value
    else arr

/-- Fill (garray_normal_int.go lines 478-492).  The loop runs `stop - start`
iterations, so fuel `stop + 1` suffices. -/
def IntArray.Fill (arr : List Int) (startIndex num value : Int) : List Int :=
  let s := if startIndex < 0 then 0 else startIndex
  let stop := (s + num).toNat
  IntArray.fillLoop (stop + 1) arr s.toNat stop value

/-- Pad (garray_normal_int.go lines 521-542). -/
def IntArray.Pad (arr : List Int) (size value : Int) : List Int :=
  if size = 0 ∨ (size > 0 ∧ size < (arr.length : Int)) ∨
      (size < 0 ∧ size > -(arr.length : Int)) then arr
  else
    let n := (if size < 0 then -size else size) - (arr.length : Int)
    let tmp := List.replicate n.toNat value
    if size > 0 then arr ++ tmp else tmp ++ arr

/-- The loop of IntArray.Rands (garray_normal_int.go lines 559-564), same
shape as the sorted-string variant. -/
def IntArray.randsLoop (arr : List Int) (size : Int) :
    List Nat → List Int → Nat → Option (List Int)
  | [], buf, _ => some buf
  | v :: rest, buf, i =>
    if i < buf.length ∧ v < arr.length then
      let buf2 := buf.set i (arr.getD v 0)
      if (i : Int) == size - 1 then some buf2
      else IntArray.randsLoop arr size rest buf2 (i + 1)
    else none

/-- IntArray.Rands (garray_normal_int.go lines 552-566). -/
def IntArray.Rands (arr : List Int) (size : Int) (perm : List Nat) : Option (List Int) :=
  let size2 := if size > (arr.length : Int) then (arr.length : Int) else size
  if size2 < 0 then none
  else IntArray.randsLoop arr size2 perm (List.replicate size2.toNat 0) 0

/-- Sorted per the comparator: every earlier element compares at most 0
against every later one (the SortedContainer invariant of the spec). -/
def sortedByLe (l : List String) : Prop := l.Pairwise fun x y => strCompare x y ≤ 0

/-- Strictly sorted per the comparator: what holds when additionally no two
adjacent elements compare equal. -/
def sortedByLt (l : List String) : Prop := l.Pairwise fun x y => strCompare x y < 0

instance (l : List String) : Decidable (sortedByLe l) :=
  inferInstanceAs (Decidable (l.Pairwise _))

instance (l : List String) : Decidable (sortedByLt l) :=
  inferInstanceAs (Decidable (l.Pairwise _))

/-- What the binary-search loop guarantees about its result `(index, cmp)` on
a sorted array: the index is in bounds; `cmp = 0` means an exact match;
`cmp < 0` means the value sorts strictly before the element at the index and
strictly after everything left of it; `cmp > 0` means the value sorts
strictly after the element at the index and strictly before everything right
of it. -/
def SortedStringArray.bsPost (arr : List String) (v : String) (r : Nat × Int) : Prop :=
  r.1 < arr.length ∧
  (r.2 = 0 → arr.getD r.1 "" = v) ∧
  (r.2 < 0 → strCompare v (arr.getD r.1 "") < 0 ∧
    ∀ i : Nat, i < r.1 → strCompare (arr.getD i "") v < 0) ∧
  (0 < r.2 → strCompare (arr.getD r.1 "") v < 0 ∧
    ∀ i : Nat, r.1 < i → i < arr.length → strCompare v (arr.getD i "") < 0)

-- Sanity checks of the embedding on the concrete traces used by the spec.
example : IntArray.Unique [3, 1, 3, 2, 1] = [3, 1, 2] := by decide
example : IntArray.Unique [1, 1, 1] = [1, 1] := by decide
example : IntArray.SubSlice [1, 2, 3, 4, 5] (-2) (some 2) = [4, 5] := by decide
example : IntArray.SubSlice [1, 2, 3, 4, 5] 1 (some (-1)) = [1] := by decide
example : IntArray.Range [10, 20, 30, 40] 1 (some 3) = some [20, 30] := by decide
example : IntArray.Range [10, 20, 30, 40] 1 none = some [20, 30, 40] := by decide
example : IntArray.Range [10, 20, 30, 40] 5 none = some [] := by decide
example : IntArray.Range [10, 20, 30, 40] (-3) (some (-2)) = none := by decide
example : IntArray.Pad [1, 2, 3] 7 0 = [1, 2, 3, 0, 0, 0, 0] := by decide
example : IntArray.Pad [1, 2, 3] (-7) 0 = [0, 0, 0, 0, 1, 2, 3] := by decide
example : IntArray.Pad [1, 2, 3] 2 0 = [1, 2, 3] := by decide
example : IntArray.Fill [1, 2] 5 1 9 = [1, 2, 9] := by decide
example : IntArray.Rands [7] 0 [0] = none := by decide
example :
    (SortedStringArray.Add ⟨["b"], false, strCompare⟩ ["a", "c", "b"]).array
      = ["a", "b", "b", "c"] := by decide
example :
    (SortedStringArray.SetUnique ⟨["a", "a", "b"], false, strCompare⟩ true).map
      SortedStringArray.array = some ["a", "b"] := by decide
example : SortedStringArray.Search ⟨["a", "b", "c"], false, strCompare⟩ "b" = 1 := by decide
example : SortedStringArray.Search ⟨["a", "b", "c"], false, strCompare⟩ "x" = -1 := by decide

/- ### Order facts about the comparator -/

lemma char_lt_iff (p q : Char) : p < q ↔ p.val.toNat < q.val.toNat := by
  rw [Char.lt_iff_val_lt_val]
  simp [UInt32.lt_def, BitVec.lt_def]
  rfl

lemma charsCompare_self : ∀ l : List Char, charsCompare l l = 0
  | [] => rfl
  | a :: as => by simp [charsCompare, lt_irrefl, charsCompare_self as]

lemma charsCompare_eq_zero_iff : ∀ a b : List Char, charsCompare a b = 0 ↔ a = b
  | [], [] => by simp [charsCompare]
  | [], _ :: _ => by simp [charsCompare]
  | _ :: _, [] => by simp [charsCompare]
  | x :: as, y :: bs => by
    simp only [charsCompare, char_lt_iff, List.cons.injEq]
    split_ifs with h1 h2
    · constructor
      · intro h
        exact absurd h (by decide)
      · rintro ⟨rfl, -⟩
        omega
    · constructor
      · intro h
        exact absurd h (by decide)
      · rintro ⟨rfl, -⟩
        omega
    · rw [charsCompare_eq_zero_iff as bs]
      constructor
      · intro h
        exact ⟨Char.ext (UInt32.ext (by omega)), h⟩
      · exact fun h => h.2

lemma charsCompare_swap : ∀ a b : List Char, charsCompare a b = -(charsCompare b a)
  | [], [] => rfl
  | [], _ :: _ => rfl
  | _ :: _, [] => rfl
  | x :: as, y :: bs => by
    simp only [charsCompare, char_lt_iff]
    split_ifs <;> first | omega | exact charsCompare_swap as bs

lemma charsCompare_le_trans : ∀ a b c : List Char,
    charsCompare a b ≤ 0 → charsCompare b c ≤ 0 → charsCompare a c ≤ 0
  | [], b, [], _, _ => by simp [charsCompare]
  | [], b, _ :: _, _, _ => by simp [charsCompare]
  | x :: as, [], c, h1, _ => by simp [charsCompare] at h1
  | x :: as, y :: bs, [], _, h2 => by simp [charsCompare] at h2
  | x :: as, y :: bs, z :: cs, h1, h2 => by
    simp only [charsCompare, char_lt_iff] at h1 h2 ⊢
    split_ifs at h1 h2 ⊢ <;>
      first
        | omega
        | exact charsCompare_le_trans as bs cs h1 h2

lemma charsCompare_lt_of_lt_of_le : ∀ a b c : List Char,
    charsCompare a b < 0 → charsCompare b c ≤ 0 → charsCompare a c < 0
  | [], [], c, h1, _ => by simp [charsCompare] at h1
  | [], _ :: _, [], _, h2 => by simp [charsCompare] at h2
  | [], _ :: _, _ :: _, _, _ => by simp [charsCompare]
  | x :: as, [], c, h1, _ => by simp [charsCompare] at h1
  | x :: as, y :: bs, [], _, h2 => by simp [charsCompare] at h2
  | x :: as, y :: bs, z :: cs, h1, h2 => by
    simp only [charsCompare, char_lt_iff] at h1 h2 ⊢
    split_ifs at h1 h2 ⊢ <;>
      first
        | omega
        | exact charsCompare_lt_of_lt_of_le as bs cs h1 h2

lemma charsCompare_lt_of_le_of_lt : ∀ a b c : List Char,
    charsCompare a b ≤ 0 → charsCompare b c < 0 → charsCompare a c < 0
  | [], [], [], _, h2 => by simp [charsCompare] at h2
  | [], _ :: _, [], _, h2 => by simp [charsCompare] at h2
  | [], b, _ :: _, _, _ => by simp [charsCompare]
  | x :: as, [], c, h1, _ => by simp [charsCompare] at h1
  | x :: as, y :: bs, [], _, h2 => by simp [charsCompare] at h2
  | x :: as, y :: bs, z :: cs, h1, h2 => by
    simp only [charsCompare, char_lt_iff] at h1 h2 ⊢
    split_ifs at h1 h2 ⊢ <;>
      first
        | omega
        | exact charsCompare_lt_of_le_of_lt as bs cs h1 h2

lemma strCompare_self (a : String) : strCompare a a = 0 := charsCompare_self a.data

lemma strCompare_eq_zero_iff (a b : String) : strCompare a b = 0 ↔ a = b := by
  rw [strCompare, charsCompare_eq_zero_iff]
  exact ⟨String.ext, congrArg String.data⟩

lemma strCompare_swap (a b : String) : strCompare a b = -(strCompare b a) :=
  charsCompare_swap a.data b.data

lemma strCompare_le_trans {a b c : String} :
    strCompare a b ≤ 0 → strCompare b c ≤ 0 → strCompare a c ≤ 0 :=
  charsCompare_le_trans a.data b.data c.data

lemma strCompare_lt_of_lt_of_le {a b c : String} :
    strCompare a b < 0 → strCompare b c ≤ 0 → strCompare a c < 0 :=
  charsCompare_lt_of_lt_of_le a.data b.data c.data

lemma strCompare_lt_of_le_of_lt {a b c : String} :
    strCompare a b ≤ 0 → strCompare b c < 0 → strCompare a c < 0 :=
  charsCompare_lt_of_le_of_lt a.data b.data c.data

lemma strCompare_ne_of_lt {a b : String} (h : strCompare a b < 0) : a ≠ b := by
  intro heq
  rw [heq, strCompare_self] at h
  omega

/- ### Sorted-list helpers -/

lemma sortedByLt.le {l : List String} (h : sortedByLt l) : sortedByLe l :=
  h.imp fun hx => le_of_lt hx

lemma sorted_getD_le {arr : List String} (hs : sortedByLe arr) {i j : Nat}
    (hij : i ≤ j) (hj : j < arr.length) :
    strCompare (arr.getD i "") (arr.getD j "") ≤ 0 := by
  rcases Nat.eq_or_lt_of_le hij with rfl | hlt
  · simp [strCompare_self]
  · have hi : i < arr.length := lt_trans hlt hj
    rw [List.getD_eq_getElem arr "" hi, List.getD_eq_getElem arr "" hj]
    exact List.pairwise_iff_getElem.mp hs i j hi hj hlt

lemma sorted_getD_lt {arr : List String} (hs : sortedByLt arr) {i j : Nat}
    (hij : i < j) (hj : j < arr.length) :
    strCompare (arr.getD i "") (arr.getD j "") < 0 := by
  have hi : i < arr.length := lt_trans hij hj
  rw [List.getD_eq_getElem arr "" hi, List.getD_eq_getElem arr "" hj]
  exact List.pairwise_iff_getElem.mp hs i j hi hj hij

/-- Inserting `v` at position `k` of a pairwise-related list stays pairwise
when everything before `k` relates to `v` and `v` relates to everything from
`k` on. -/
lemma pairwise_insertAt {R : String → String → Prop} (arr : List String) (v : String)
    (k : Nat) (hp : arr.Pairwise R)
    (h1 : ∀ i : Nat, i < k → i < arr.length → R (arr.getD i "") v)
    (h2 : ∀ i : Nat, k ≤ i → i < arr.length → R v (arr.getD i "")) :
    (arr.take k ++ v :: arr.drop k).Pairwise R := by
  rw [List.pairwise_append]
  refine ⟨hp.sublist (List.take_sublist k arr), ?_, ?_⟩
  · rw [List.pairwise_cons]
    refine ⟨?_, hp.sublist (List.drop_sublist k arr)⟩
    intro b hb
    obtain ⟨j, hj, rfl⟩ := List.mem_iff_getElem.mp hb
    have hkj : k + j < arr.length := by
      have h := hj
      rw [List.length_drop] at h
      omega
    rw [List.getElem_drop, ← List.getD_eq_getElem arr "" hkj]
    exact h2 (k + j) (Nat.le_add_right _ _) hkj
  · intro x hx b hb
    obtain ⟨i, hi, rfl⟩ := List.mem_iff_getElem.mp hx
    have hik : i < k := by
      have h := hi
      rw [List.length_take] at h
      omega
    have hil : i < arr.length := by
      have h := hi
      rw [List.length_take] at h
      omega
    rw [List.getElem_take]
    rcases List.mem_cons.mp hb with rfl | hbd
    · rw [← List.getD_eq_getElem arr "" hil]
      exact h1 i hik hil
    · obtain ⟨j, hj, rfl⟩ := List.mem_iff_getElem.mp hbd
      have hkj : k + j < arr.length := by
        have h := hj
        rw [List.length_drop] at h
        omega
      rw [List.getElem_drop]
      exact List.pairwise_iff_getElem.mp hp i (k + j) hil hkj (by omega)

/- ### The binary-search contract -/

namespace SortedStringArray

lemma binSearchLoop_exit (cmpf : String → String → Int) (arr : List String) (v : String)
    (fuel mn : Nat) (mx : Int) (mid : Nat) (cmp : Int) (h : ¬ ((mn : Int) ≤ mx)) :
    binSearchLoop cmpf arr v fuel mn mx mid cmp = (mid, cmp) := by
  cases fuel <;> simp [binSearchLoop, h]

lemma binSearchLoop_spec (arr : List String) (v : String) (hs : sortedByLe arr) :
    ∀ (fuel mn : Nat) (mx : Int) (mid : Nat) (cmp : Int),
      (mn : Int) ≤ mx → mx < (arr.length : Int) → (mx + 1 - (mn : Int)).toNat < fuel →
      (∀ i : Nat, i < mn → i < arr.length → strCompare (arr.getD i "") v < 0) →
      (∀ i : Nat, mx < (i : Int) → i < arr.length → strCompare v (arr.getD i "") < 0) →
      bsPost arr v (binSearchLoop strCompare arr v fuel mn mx mid cmp) := by
  intro fuel
  induction fuel with
  | zero =>
    intro mn mx mid cmp h1 _ h3 _ _
    omega
  | succ fuel ih =>
    intro mn mx mid cmp hmnmx hmx hfuel H1 H2
    simp only [binSearchLoop]
    rw [if_pos hmnmx]
    set m := (mn + mx.toNat) / 2 with hm
    set c := strCompare v (arr.getD m "") with hc
    have hmnm : mn ≤ m := by omega
    have hmmx : (m : Int) ≤ mx := by omega
    have hmlen : m < arr.length := by omega
    by_cases hneg : c < 0
    · rw [if_pos hneg]
      by_cases hrec : (mn : Int) ≤ (m : Int) - 1
      · refine ih mn ((m : Int) - 1) m c hrec (by omega) (by omega) H1 ?_
        intro i hi hilen
        have him : m ≤ i := by omega
        rcases Nat.eq_or_lt_of_le him with rfl | hlt
        · exact hneg
        · exact strCompare_lt_of_lt_of_le hneg (sorted_getD_le hs (le_of_lt hlt) hilen)
      · rw [binSearchLoop_exit _ _ _ _ _ _ _ _ hrec]
        have hmnm2 : mn = m := by omega
        refine ⟨hmlen, ?_, ?_, ?_⟩
        · intro h0
          omega
        · intro _
          exact ⟨hneg, fun i hi => H1 i (by omega) (by omega)⟩
        · intro h0
          omega
    · rw [if_neg hneg]
      by_cases hpos : c > 0
      · rw [if_pos hpos]
        have hswap : strCompare (arr.getD m "") v < 0 := by
          have := strCompare_swap (arr.getD m "") v
          omega
        by_cases hrec : ((m : Nat) + 1 : Int) ≤ mx
        · refine ih (m + 1) mx m c (by exact_mod_cast hrec) hmx (by omega) ?_ H2
          intro i hi hilen
          have him : i ≤ m := by omega
          exact strCompare_lt_of_le_of_lt (sorted_getD_le hs him hmlen) hswap
        · rw [binSearchLoop_exit _ _ _ _ _ _ _ _ hrec]
          have hmxm : mx = (m : Int) := by omega
          refine ⟨hmlen, ?_, ?_, ?_⟩
          · intro h0
            omega
          · intro h0
            omega
          · intro _
            refine ⟨hswap, fun i hi hilen => H2 i (by omega) hilen⟩
      · rw [if_neg hpos]
        have hzero : c = 0 := by omega
        refine ⟨hmlen, ?_, ?_, ?_⟩
        · intro _
          have := (strCompare_eq_zero_iff v (arr.getD m "")).mp (by omega)
          exact this.symm
        · intro h0
          omega
        · intro h0
          omega

/-- The result of the loop as binSearch runs it, on a sorted non-empty array. -/
lemma binSearchRun_post (arr : List String) (v : String) (hs : sortedByLe arr)
    (hlen : 0 < arr.length) :
    bsPost arr v
      (binSearchLoop strCompare arr v (arr.length + 1) 0 ((arr.length : Int) - 1) 0 (-2)) := by
  refine binSearchLoop_spec arr v hs (arr.length + 1) 0 ((arr.length : Int) - 1) 0 (-2)
    (by omega) (by omega) (by omega) (fun i hi _ => absurd hi (Nat.not_lt_zero i)) ?_
  intro i hi hilen
  exfalso
  omega

/-- On a sorted array, a present value makes the binary search end with an
exact comparison. -/
lemma bsPost_mem {arr : List String} {v : String} {r : Nat × Int} (hs : sortedByLe arr)
    (hp : bsPost arr v r) (hmem : v ∈ arr) : r.2 = 0 := by
  rcases lt_trichotomy r.2 0 with hlt | heq | hgt
  · obtain ⟨j, hj, hjv⟩ := List.mem_iff_getElem.mp hmem
    rcases Nat.lt_or_ge j r.1 with hcase | hcase
    · have h := (hp.2.2.1 hlt).2 j hcase
      rw [List.getD_eq_getElem arr "" hj, hjv] at h
      rw [strCompare_self] at h
      omega
    · have h1 := (hp.2.2.1 hlt).1
      have h2 := sorted_getD_le hs hcase hj
      have h3 := strCompare_lt_of_lt_of_le h1 h2
      rw [List.getD_eq_getElem arr "" hj, hjv] at h3
      rw [strCompare_self] at h3
      omega
  · exact heq
  · obtain ⟨j, hj, hjv⟩ := List.mem_iff_getElem.mp hmem
    rcases Nat.lt_or_ge r.1 j with hcase | hcase
    · have h := (hp.2.2.2 hgt).2 j hcase hj
      rw [List.getD_eq_getElem arr "" hj, hjv] at h
      rw [strCompare_self] at h
      omega
    · have h1 := (hp.2.2.2 hgt).1
      have h2 := sorted_getD_le hs hcase hp.1
      have h3 := strCompare_lt_of_le_of_lt h2 h1
      rw [List.getD_eq_getElem arr "" hj, hjv] at h3
      rw [strCompare_self] at h3
      omega

end SortedStringArray

namespace SortedStringArray

lemma addOne_unique_eq (a : SortedStringArray) (v : String) :
    (addOne a v).unique = a.unique := by
  simp only [addOne]
  split_ifs <;> rfl

lemma addOne_comparator_eq (a : SortedStringArray) (v : String) :
    (addOne a v).comparator = a.comparator := by
  simp only [addOne]
  split_ifs <;> rfl

lemma addOne_sorted (a : SortedStringArray) (v : String) (hc : a.comparator = strCompare)
    (hs : sortedByLe a.array) : sortedByLe (addOne a v).array := by
  rcases Nat.eq_zero_or_pos a.array.length with hlen | hlen
  · have harr : a.array = [] := List.length_eq_zero.mp hlen
    simp [addOne, binSearch, harr, hc, sortedByLe]
  · have hne : ¬ (a.array.length = 0) := by omega
    rcases hR : binSearchLoop strCompare a.array v (a.array.length + 1) 0
        ((a.array.length : Int) - 1) 0 (-2) with ⟨idx, cmp⟩
    have hpost := binSearchRun_post a.array v hs hlen
    rw [hR] at hpost
    simp only [bsPost] at hpost
    have hbs : binSearch a.comparator a.array v = ((idx : Int), cmp) := by
      rw [hc]
      simp only [binSearch]
      rw [if_neg hne, hR]
    simp only [addOne, hbs]
    by_cases hskip : (a.unique && (cmp == 0)) = true
    · rw [if_pos hskip]
      exact hs
    · rw [if_neg hskip]
      have hidx : ¬ ((idx : Int) < 0) := by omega
      rw [if_neg hidx]
      rcases lt_trichotomy cmp 0 with hlt | heq | hgt
    -- cmp < 0: insert before idx
      · have hnpos : ¬ (cmp > 0) := by omega
        rw [if_neg hnpos]
        have htn : ((idx : Int)).toNat = idx := by omega
        rw [htn]
        refine pairwise_insertAt a.array v idx hs ?_ ?_
        · intro i hi _
          exact le_of_lt ((hpost.2.2.1 hlt).2 i hi)
        · intro i hi hilen
          rcases Nat.eq_or_lt_of_le hi with rfl | hlt2
          · exact le_of_lt (hpost.2.2.1 hlt).1
          · exact le_of_lt (strCompare_lt_of_lt_of_le (hpost.2.2.1 hlt).1
              (sorted_getD_le hs (le_of_lt hlt2) hilen))
    -- cmp = 0: insert at idx (uniqueness off)
      · subst heq
        have hnpos : ¬ ((0 : Int) > 0) := by omega
        rw [if_neg hnpos]
        have htn : ((idx : Int)).toNat = idx := by omega
        rw [htn]
        have hveq : a.array.getD idx "" = v := hpost.2.1 rfl
        refine pairwise_insertAt a.array v idx hs ?_ ?_
        · intro i hi hilen
          rw [← hveq]
          exact sorted_getD_le hs (le_of_lt hi) hpost.1
        · intro i hi hilen
          rw [← hveq]
          exact sorted_getD_le hs hi hilen
    -- cmp > 0: insert after idx
      · rw [if_pos hgt]
        have htn : ((idx : Int) + 1).toNat = idx + 1 := by omega
        rw [htn]
        refine pairwise_insertAt a.array v (idx + 1) hs ?_ ?_
        · intro i hi _
          exact le_of_lt (strCompare_lt_of_le_of_lt
            (sorted_getD_le hs (by omega) hpost.1) (hpost.2.2.2 hgt).1)
        · intro i hi hilen
          exact le_of_lt ((hpost.2.2.2 hgt).2 i (by omega) hilen)

end SortedStringArray

namespace SortedStringArray

lemma addOne_sorted_lt (a : SortedStringArray) (v : String)
    (hc : a.comparator = strCompare) (hu : a.unique = true)
    (hs : sortedByLt a.array) : sortedByLt (addOne a v).array := by
  rcases Nat.eq_zero_or_pos a.array.length with hlen | hlen
  · have harr : a.array = [] := List.length_eq_zero.mp hlen
    simp [addOne, binSearch, harr, hc, sortedByLt]
  · have hne : ¬ (a.array.length = 0) := by omega
    rcases hR : binSearchLoop strCompare a.array v (a.array.length + 1) 0
        ((a.array.length : Int) - 1) 0 (-2) with ⟨idx, cmp⟩
    have hpost := binSearchRun_post a.array v hs.le hlen
    rw [hR] at hpost
    simp only [bsPost] at hpost
    have hbs : binSearch a.comparator a.array v = ((idx : Int), cmp) := by
      rw [hc]
      simp only [binSearch]
      rw [if_neg hne, hR]
    simp only [addOne, hbs]
    by_cases hskip : (a.unique && (cmp == 0)) = true
    · rw [if_pos hskip]
      exact hs
    · rw [if_neg hskip]
      have hcmpne : cmp ≠ 0 := by
        intro h0
        rw [hu, h0] at hskip
        simp at hskip
      have hidx : ¬ ((idx : Int) < 0) := by omega
      rw [if_neg hidx]
      rcases lt_trichotomy cmp 0 with hlt | heq | hgt
      · have hnpos : ¬ (cmp > 0) := by omega
        rw [if_neg hnpos]
        have htn : ((idx : Int)).toNat = idx := by omega
        rw [htn]
        refine pairwise_insertAt a.array v idx hs ?_ ?_
        · intro i hi _
          exact (hpost.2.2.1 hlt).2 i hi
        · intro i hi hilen
          rcases Nat.eq_or_lt_of_le hi with rfl | hlt2
          · exact (hpost.2.2.1 hlt).1
          · exact strCompare_lt_of_lt_of_le (hpost.2.2.1 hlt).1
              (le_of_lt (sorted_getD_lt hs hlt2 hilen))
      · exact absurd heq hcmpne
      · rw [if_pos hgt]
        have htn : ((idx : Int) + 1).toNat = idx + 1 := by omega
        rw [htn]
        refine pairwise_insertAt a.array v (idx + 1) hs ?_ ?_
        · intro i hi _
          rcases Nat.eq_or_lt_of_le (Nat.lt_succ_iff.mp hi) with rfl | hlt2
          · exact (hpost.2.2.2 hgt).1
          · exact strCompare_lt_of_le_of_lt (le_of_lt (sorted_getD_lt hs hlt2 hpost.1))
              (hpost.2.2.2 hgt).1
        · intro i hi hilen
          exact (hpost.2.2.2 hgt).2 i (by omega) hilen

lemma addOne_of_mem (a : SortedStringArray) (v : String)
    (hc : a.comparator = strCompare) (hu : a.unique = true)
    (hs : sortedByLe a.array) (hmem : v ∈ a.array) : addOne a v = a := by
  have hlen : 0 < a.array.length := List.length_pos.mpr (List.ne_nil_of_mem hmem)
  have hne : ¬ (a.array.length = 0) := by omega
  rcases hR : binSearchLoop strCompare a.array v (a.array.length + 1) 0
      ((a.array.length : Int) - 1) 0 (-2) with ⟨idx, cmp⟩
  have hpost := binSearchRun_post a.array v hs hlen
  rw [hR] at hpost
  have hzero : cmp = 0 := bsPost_mem hs hpost hmem
  have hbs : binSearch a.comparator a.array v = ((idx : Int), cmp) := by
    rw [hc]
    simp only [binSearch]
    rw [if_neg hne, hR]
  simp [addOne, hbs, hu, hzero]

lemma Add_cons (a : SortedStringArray) (v : String) (vs : List String) :
    Add a (v :: vs) = Add (addOne a v) vs := rfl

lemma Add_sorted (a : SortedStringArray) (values : List String)
    (hc : a.comparator = strCompare) (hs : sortedByLe a.array) :
    sortedByLe (Add a values).array := by
  induction values generalizing a with
  | nil => exact hs
  | cons v vs ih =>
    rw [Add_cons]
    exact ih (addOne a v) (by rw [addOne_comparator_eq, hc]) (addOne_sorted a v hc hs)

lemma Add_sorted_lt (a : SortedStringArray) (values : List String)
    (hc : a.comparator = strCompare) (hu : a.unique = true)
    (hs : sortedByLt a.array) : sortedByLt (Add a values).array := by
  induction values generalizing a with
  | nil => exact hs
  | cons v vs ih =>
    rw [Add_cons]
    exact ih (addOne a v) (by rw [addOne_comparator_eq, hc])
      (by rw [addOne_unique_eq, hu]) (addOne_sorted_lt a v hc hu hs)

end SortedStringArray

namespace IntArray

lemma fillLoop_spec : ∀ (fuel : Nat) (arr : List Int) (i stop : Nat) (value : Int),
    stop - i < fuel → i ≤ arr.length →
    (fillLoop fuel arr i stop value).length = max arr.length stop ∧
    (∀ k : Nat, k < i → (fillLoop fuel arr i stop value)[k]? = arr[k]?) ∧
    (∀ k : Nat, i ≤ k → k < stop → (fillLoop fuel arr i stop value)[k]? = some value) := by
  intro fuel
  induction fuel with
  | zero =>
    intro arr i stop value hf _
    omega
  | succ fuel ih =>
    intro arr i stop value hf hi
    simp only [fillLoop]
    by_cases his : i < stop
    · rw [if_pos his]
      by_cases happ : (i : Int) > (arr.length : Int) - 1
      · rw [if_pos happ]
        have hieq : i = arr.length := by omega
        have hlen2 : i + 1 ≤ (arr ++ [value]).length := by
          rw [List.length_append]
          simp
          omega
        obtain ⟨ihA, ihB, ihC⟩ := ih (arr ++ [value]) (i + 1) stop value (by omega) hlen2
        refine ⟨?_, ?_, ?_⟩
        · rw [ihA, List.length_append]
          simp
          omega
        · intro k hk
          rw [ihB k (by omega), List.getElem?_append, if_pos (by omega)]
        · intro k hk1 hk2
          rcases Nat.eq_or_lt_of_le hk1 with rfl | hlt
          · rw [ihB i (by omega), hieq]
            exact List.getElem?_concat_length arr value
          · exact ihC k (by omega) hk2
      · rw [if_neg happ]
        have hilt : i < arr.length := by omega
        have hlen2 : i + 1 ≤ (arr.set i value).length := by
          rw [List.length_set]
          omega
        obtain ⟨ihA, ihB, ihC⟩ := ih (arr.set i value) (i + 1) stop value (by omega) hlen2
        refine ⟨?_, ?_, ?_⟩
        · rw [ihA, List.length_set]
        · intro k hk
          have hne2 : i ≠ k := by omega
          rw [ihB k (by omega)]
          simp [List.getElem?_set, hne2]
        · intro k hk1 hk2
          rcases Nat.eq_or_lt_of_le hk1 with rfl | hlt
          · rw [ihB i (by omega)]
            simp [List.getElem?_set, hilt]
          · exact ihC k (by omega) hk2
    · rw [if_neg his]
      refine ⟨by omega, fun k _ => rfl, fun k hk1 hk2 => absurd (lt_of_le_of_lt hk1 hk2) his⟩

end IntArray

/- ### SubSlice closed forms -/

lemma subSliceCore_nonneg {α : Type} (arr : List α) (offset size : Int)
    (ho : 0 ≤ offset) (hsz : 0 ≤ size) :
    subSliceCore arr offset (some size) = (arr.drop offset.toNat).take size.toNat := by
  simp only [subSliceCore, Option.getD_some]
  split_ifs <;>
    first
      | rfl
      | (exfalso; omega)
      | (rw [List.drop_eq_nil_of_le (by omega), List.take_nil])
      | (rw [List.take_of_length_le (by rw [List.length_drop]; omega),
          List.take_of_length_le (by rw [List.length_drop]; omega)])

lemma subSliceCore_none_eq {α : Type} (arr : List α) (offset : Int) :
    subSliceCore arr offset none = subSliceCore arr offset (some (arr.length : Int)) := rfl

lemma subSliceCore_none {α : Type} (arr : List α) (offset : Int) (ho : 0 ≤ offset) :
    subSliceCore arr offset none = arr.drop offset.toNat := by
  rw [subSliceCore_none_eq, subSliceCore_nonneg arr offset _ ho (by omega)]
  exact List.take_of_length_le (by rw [List.length_drop]; omega)

lemma subSliceCore_neg_offset {α : Type} (arr : List α) (offset : Int) (len? : Option Int)
    (ho : offset < 0) (hin : 0 ≤ (arr.length : Int) + offset) :
    subSliceCore arr offset len? = subSliceCore arr ((arr.length : Int) + offset) len? := by
  simp only [subSliceCore]
  simp only [if_neg (by omega : ¬ offset > (arr.length : Int)),
    if_neg (by omega : ¬ ((arr.length : Int) + offset) > (arr.length : Int)),
    if_pos ho, if_neg (by omega : ¬ ((arr.length : Int) + offset) < 0)]

lemma subSliceCore_neg_offset_out {α : Type} (arr : List α) (offset : Int) (len? : Option Int)
    (ho : offset < 0) (hout : (arr.length : Int) + offset < 0) :
    subSliceCore arr offset len? = [] := by
  simp only [subSliceCore]
  rw [if_neg (by omega : ¬ offset > (arr.length : Int)), if_pos ho, if_pos hout]

lemma subSliceCore_neg_size {α : Type} (arr : List α) (offset size : Int)
    (hsz : size < 0) (hos : 0 ≤ offset + size) (hol : offset ≤ (arr.length : Int)) :
    subSliceCore arr offset (some size) = subSliceCore arr (offset + size) (some (-size)) := by
  have hoff : 0 < offset := by omega
  simp only [subSliceCore, Option.getD_some]
  simp only [if_neg (by omega : ¬ offset > (arr.length : Int)),
    if_neg (by omega : ¬ offset < 0),
    if_pos hsz,
    if_neg (by omega : ¬ (offset + size) > (arr.length : Int)),
    if_neg (by omega : ¬ (offset + size) < 0),
    if_neg (by omega : ¬ (-size) < 0),
    if_neg (by omega : ¬ (offset + size + -size) > (arr.length : Int))]

/- ### Range closed form -/

lemma Range_core (arr : List Int) (start eff : Int)
    (heffn : eff ≤ (arr.length : Int)) (hyp : 0 ≤ eff ∨ eff < start) :
    (if start > eff then some []
     else if 0 ≤ (if start < 0 then 0 else start) ∧
         (if start < 0 then 0 else start) ≤ eff ∧ eff ≤ (arr.length : Int) then
       some ((arr.drop (if start < 0 then 0 else start).toNat).take
         ((eff - (if start < 0 then 0 else start)).toNat))
     else none) =
    some ((arr.drop (max start 0).toNat).take ((eff - max start 0).toNat)) := by
  by_cases h1 : start > eff
  · rw [if_pos h1]
    refine congrArg some ?_
    rw [show ((eff - max start 0).toNat) = 0 from by omega, List.take_zero]
  · rw [if_neg h1]
    rcases hyp with heff0 | hlt
    · by_cases hneg : start < 0
      · simp only [if_pos hneg]
        rw [if_pos ⟨le_refl 0, by omega, heffn⟩]
        refine congrArg some ?_
        rw [show ((0 : Int)).toNat = (max start 0).toNat from by omega,
          show ((eff - 0).toNat) = ((eff - max start 0).toNat) from by omega]
      · simp only [if_neg hneg]
        rw [if_pos ⟨by omega, by omega, heffn⟩]
        refine congrArg some ?_
        rw [show start.toNat = (max start 0).toNat from by omega,
          show ((eff - start).toNat) = ((eff - max start 0).toNat) from by omega]
    · exact absurd hlt (by omega)

/- ### The claims -/

/-- C1: on a container whose backing sequence is sorted per its comparator,
each single insertion done by Add (addOne) leaves the sequence sorted, and
therefore every Add call keeps the container sorted, so any sequence of Add
calls starting from a sorted container keeps it sorted after every call. -/
theorem C1_add_keeps_sorted (a : SortedStringArray) (values : List String) (v : String)
    (hc : a.comparator = strCompare) (hs : sortedByLe a.array) :
    sortedByLe (SortedStringArray.addOne a v).array ∧
    sortedByLe (SortedStringArray.Add a values).array :=
  ⟨SortedStringArray.addOne_sorted a v hc hs, SortedStringArray.Add_sorted a values hc hs⟩

theorem C1_add_keeps_sorted_witness :
    sortedByLe (SortedStringArray.addOne ⟨["b"], false, strCompare⟩ "a").array ∧
    sortedByLe (SortedStringArray.Add ⟨["b"], false, strCompare⟩ ["a", "c", "b"]).array :=
  C1_add_keeps_sorted ⟨["b"], false, strCompare⟩ ["a", "c", "b"] "a" rfl (by decide)

/-- C2 (code bug): the unsorted Unique is documented to clear all repeated
items, but after deleting position j the loop still increments j, skipping
the element shifted into the hole: on [1,1,1] it returns [1,1], leaving a
duplicate, so "afterwards no two elements are equal" fails; the claim's
example [3,1,3,2,1] → [3,1,2] does hold. -/
theorem C2_unique_eval :
    IntArray.Unique [1, 1, 1] = [1, 1] ∧ ¬ (IntArray.Unique [1, 1, 1]).Nodup ∧
    IntArray.Unique [3, 1, 3, 2, 1] = [3, 1, 2] := by decide

/-- C3 (counterexample): SubSlice(1,-1) on [1,2,3,4,5] yields [1], not the
[2,3] the claim states. -/
theorem C3_subslice_counterexample :
    IntArray.SubSlice [1, 2, 3, 4, 5] 1 (some (-1)) = [1] ∧
    IntArray.SubSlice [1, 2, 3, 4, 5] 1 (some (-1)) ≠ [2, 3] := by decide

/-- C3 (amended): the window is the code's: non-negative offset and length
give the clamped window starting at offset; omitted length means the
remainder; a negative offset is measured from the end (empty when it stays
negative); a negative length does not shrink the window from its end but
moves it: it is the |length| elements ending at the computed offset, so
SubSlice(offset, -k) = SubSlice(offset - k, k); SubSlice(-2,2) on
[1,2,3,4,5] yields [4,5] and SubSlice(1,-1) yields [1]. -/
theorem C3_subslice_amended :
    (∀ (arr : List Int) (offset size : Int), 0 ≤ offset → 0 ≤ size →
      IntArray.SubSlice arr offset (some size) = (arr.drop offset.toNat).take size.toNat) ∧
    (∀ (arr : List Int) (offset : Int), 0 ≤ offset →
      IntArray.SubSlice arr offset none = arr.drop offset.toNat) ∧
    (∀ (arr : List Int) (offset : Int) (length? : Option Int), offset < 0 →
      0 ≤ (arr.length : Int) + offset →
      IntArray.SubSlice arr offset length? =
        IntArray.SubSlice arr ((arr.length : Int) + offset) length?) ∧
    (∀ (arr : List Int) (offset : Int) (length? : Option Int), offset < 0 →
      (arr.length : Int) + offset < 0 → IntArray.SubSlice arr offset length? = []) ∧
    (∀ (arr : List Int) (offset size : Int), size < 0 → 0 ≤ offset + size →
      offset ≤ (arr.length : Int) →
      IntArray.SubSlice arr offset (some size) =
        IntArray.SubSlice arr (offset + size) (some (-size))) ∧
    (∀ (a : SortedStringArray) (offset size : Int), size < 0 → 0 ≤ offset + size →
      offset ≤ (a.array.length : Int) →
      SortedStringArray.SubSlice a offset (some size) =
        SortedStringArray.SubSlice a (offset + size) (some (-size))) ∧
    IntArray.SubSlice [1, 2, 3, 4, 5] (-2) (some 2) = [4, 5] ∧
    IntArray.SubSlice [1, 2, 3, 4, 5] 1 (some (-1)) = [1] :=
  ⟨fun arr offset size ho hs => subSliceCore_nonneg arr offset size ho hs,
   fun arr offset ho => subSliceCore_none arr offset ho,
   fun arr offset length? ho hin => subSliceCore_neg_offset arr offset length? ho hin,
   fun arr offset length? ho hout => subSliceCore_neg_offset_out arr offset length? ho hout,
   fun arr offset size hsz hos hol => subSliceCore_neg_size arr offset size hsz hos hol,
   fun a offset size hsz hos hol => subSliceCore_neg_size a.array offset size hsz hos hol,
   by decide, by decide⟩

theorem C3_subslice_amended_witness :
    IntArray.SubSlice [1, 2, 3, 4, 5] 3 (some (-2)) =
      IntArray.SubSlice [1, 2, 3, 4, 5] 1 (some 2) :=
  C3_subslice_amended.2.2.2.2.1 [1, 2, 3, 4, 5] 3 (-2) (by decide) (by decide) (by decide)

/-- C4 (counterexample): Range(-3,-2) on [10,20,30,40] does not return the
empty window the claim assigns it; the final unchecked slice expression has
a negative upper bound and panics (modelled as none). -/
theorem C4_range_counterexample :
    IntArray.Range [10, 20, 30, 40] (-3) (some (-2)) = none ∧
    IntArray.Range [10, 20, 30, 40] (-3) (some (-2)) ≠ some [] := by decide

/-- C4 (amended): Range(start, end?) returns the elements over
[max(start,0), min(end or length, length)) whenever the effective end is
non-negative or lies strictly below start (in particular whenever start ≥ 0,
and the three examples hold); in the remaining region — start negative,
effective end negative, start ≤ effective end — the unchecked slice
expression faults instead of returning empty. -/
theorem C4_range_amended :
    (∀ (arr : List Int) (start : Int) (end? : Option Int),
      (0 ≤ min (end?.getD (arr.length : Int)) (arr.length : Int) ∨
        min (end?.getD (arr.length : Int)) (arr.length : Int) < start) →
      IntArray.Range arr start end? =
        some ((arr.drop (max start 0).toNat).take
          ((min (end?.getD (arr.length : Int)) (arr.length : Int) - max start 0).toNat))) ∧
    IntArray.Range [10, 20, 30, 40] 1 (some 3) = some [20, 30] ∧
    IntArray.Range [10, 20, 30, 40] 1 none = some [20, 30, 40] ∧
    IntArray.Range [10, 20, 30, 40] 5 none = some [] := by
  refine ⟨?_, by decide, by decide, by decide⟩
  intro arr start end? hyp
  rcases end? with _ | e
  · simp only [Option.getD_none] at hyp ⊢
    rw [min_self] at hyp ⊢
    simp only [IntArray.Range]
    exact Range_core arr start (arr.length : Int) (le_refl _) hyp
  · simp only [Option.getD_some] at hyp ⊢
    simp only [IntArray.Range]
    rw [show (if e < (arr.length : Int) then e else (arr.length : Int)) =
        min e (arr.length : Int) from by split_ifs <;> omega]
    exact Range_core arr start (min e (arr.length : Int)) (min_le_right _ _) hyp

theorem C4_range_amended_witness : IntArray.Range [10, 20, 30, 40] 0 (some 2) = some [10, 20] := by
  have h := C4_range_amended.1 [10, 20, 30, 40] 0 (some 2) (by decide)
  simpa using h

/-- C5: with uniqueness on, Add skips a value whose binary-search comparison
is exact, so adding a present value leaves the container unchanged; starting
from a container sorted with no adjacent equal elements (strictly sorted),
Add keeps it strictly sorted and hence never produces two adjacent equal
elements; and SetUnique(true) on ["a","a","b"] with uniqueness previously
off yields ["a","b"]. -/
theorem C5_unique_add (a : SortedStringArray) (values : List String) (v : String)
    (hc : a.comparator = strCompare) (hu : a.unique = true)
    (hslt : sortedByLt a.array) (hmem : v ∈ a.array) :
    SortedStringArray.Add a [v] = a ∧
    sortedByLt (SortedStringArray.Add a values).array ∧
    (SortedStringArray.Add a values).array.Chain' (· ≠ ·) ∧
    (SortedStringArray.SetUnique ⟨["a", "a", "b"], false, strCompare⟩ true).map
      SortedStringArray.array = some ["a", "b"] := by
  have hadd := SortedStringArray.Add_sorted_lt a values hc hu hslt
  have hadd2 : (SortedStringArray.Add a values).array.Pairwise
      (fun x y => strCompare x y < 0) := hadd
  refine ⟨?_, hadd, ?_, by decide⟩
  · rw [SortedStringArray.Add_cons,
      SortedStringArray.addOne_of_mem a v hc hu hslt.le hmem]
    rfl
  · exact hadd2.chain'.imp fun _ _ h => strCompare_ne_of_lt h

theorem C5_unique_add_witness :
    SortedStringArray.Add ⟨["a", "c"], true, strCompare⟩ ["a"] =
      (⟨["a", "c"], true, strCompare⟩ : SortedStringArray) ∧
    sortedByLt (SortedStringArray.Add ⟨["a", "c"], true, strCompare⟩ ["b", "a"]).array ∧
    (SortedStringArray.Add ⟨["a", "c"], true, strCompare⟩ ["b", "a"]).array.Chain' (· ≠ ·) ∧
    (SortedStringArray.SetUnique ⟨["a", "a", "b"], false, strCompare⟩ true).map
      SortedStringArray.array = some ["a", "b"] :=
  C5_unique_add ⟨["a", "c"], true, strCompare⟩ ["b", "a"] "a" rfl rfl (by decide) (by decide)

/-- C6: on a container sorted per its comparator, Search(v) returns an
in-bounds index whose element equals v exactly when v is present, and -1
otherwise; on an empty container binSearch returns the sentinel (-1, -2)
(no position, no comparison) rather than faulting, so Search returns -1. -/
theorem C6_search (a : SortedStringArray) (v : String)
    (hc : a.comparator = strCompare) (hs : sortedByLe a.array) :
    ((0 ≤ SortedStringArray.Search a v ∧
      a.array.getD (SortedStringArray.Search a v).toNat "" = v) ↔ v ∈ a.array) ∧
    (v ∉ a.array → SortedStringArray.Search a v = -1) ∧
    (a.array = [] →
      SortedStringArray.binSearch a.comparator a.array v = (-1, -2) ∧
      SortedStringArray.Search a v = -1) := by
  rcases Nat.eq_zero_or_pos a.array.length with hlen | hlen
  · have harr : a.array = [] := List.length_eq_zero.mp hlen
    have hbs : SortedStringArray.binSearch a.comparator a.array v = (-1, -2) := by
      simp [SortedStringArray.binSearch, harr]
    have hsearch : SortedStringArray.Search a v = -1 := by
      simp [SortedStringArray.Search, hbs]
    refine ⟨?_, fun _ => hsearch, fun _ => ⟨hbs, hsearch⟩⟩
    rw [hsearch, harr]
    constructor
    · intro h
      exact absurd h.1 (by omega)
    · intro h
      exact absurd h (List.not_mem_nil v)
  · have hne : ¬ (a.array.length = 0) := by omega
    have hnonempty : ¬ (a.array = []) := by
      intro h
      rw [h] at hlen
      simp at hlen
    rcases hR : SortedStringArray.binSearchLoop strCompare a.array v (a.array.length + 1) 0
        ((a.array.length : Int) - 1) 0 (-2) with ⟨idx, cmp⟩
    have hpostB := SortedStringArray.binSearchRun_post a.array v hs hlen
    rw [hR] at hpostB
    have hpost := hpostB
    simp only [SortedStringArray.bsPost] at hpost
    have hbs : SortedStringArray.binSearch a.comparator a.array v = ((idx : Int), cmp) := by
      rw [hc]
      simp only [SortedStringArray.binSearch]
      rw [if_neg hne, hR]
    by_cases hmem : v ∈ a.array
    · have hzero : cmp = 0 := SortedStringArray.bsPost_mem hs hpostB hmem
      have hsearch : SortedStringArray.Search a v = (idx : Int) := by
        simp [SortedStringArray.Search, hbs, hzero]
      refine ⟨?_, fun hnm => absurd hmem hnm, fun h => absurd h hnonempty⟩
      rw [hsearch]
      constructor
      · intro _
        exact hmem
      · intro _
        refine ⟨by omega, ?_⟩
        rw [show ((idx : Int)).toNat = idx from by omega]
        exact hpost.2.1 hzero
    · have hnzero : cmp ≠ 0 := by
        intro h0
        apply hmem
        have hveq := hpost.2.1 h0
        rw [List.getD_eq_getElem a.array "" hpost.1] at hveq
        exact List.mem_iff_getElem.mpr ⟨idx, hpost.1, hveq⟩
      have hsearch : SortedStringArray.Search a v = -1 := by
        simp [SortedStringArray.Search, hbs, hnzero]
      refine ⟨?_, fun _ => hsearch, fun h => absurd h hnonempty⟩
      rw [hsearch]
      constructor
      · intro h
        exact absurd h.1 (by omega)
      · intro h
        exact absurd h hmem

theorem C6_search_witness :
    ((0 ≤ SortedStringArray.Search ⟨["a", "b"], false, strCompare⟩ "b" ∧
      ((⟨["a", "b"], false, strCompare⟩ : SortedStringArray)).array.getD
        (SortedStringArray.Search ⟨["a", "b"], false, strCompare⟩ "b").toNat "" = "b") ↔
      "b" ∈ ((⟨["a", "b"], false, strCompare⟩ : SortedStringArray)).array) ∧
    ("b" ∉ ((⟨["a", "b"], false, strCompare⟩ : SortedStringArray)).array →
      SortedStringArray.Search ⟨["a", "b"], false, strCompare⟩ "b" = -1) ∧
    (((⟨["a", "b"], false, strCompare⟩ : SortedStringArray)).array = [] →
      SortedStringArray.binSearch strCompare ["a", "b"] "b" = (-1, -2) ∧
      SortedStringArray.Search ⟨["a", "b"], false, strCompare⟩ "b" = -1) :=
  C6_search ⟨["a", "b"], false, strCompare⟩ "b" rfl (by decide)

/-- C7 (counterexample): Fill with a start index beyond the current length
appends at the end of the sequence, not at the start index: on [1,2],
Fill(5,1,9) gives [1,2,9] and there is no element at index 5, so the claimed
window [5,5] filled with the value does not exist. -/
theorem C7_fill_counterexample :
    IntArray.Fill [1, 2] 5 1 9 = [1, 2, 9] ∧
    (IntArray.Fill [1, 2] 5 1 9)[5]? = none := by decide

/-- C7 (amended): when max(startIndex,0) does not exceed the current length
(and count ≥ 1), Fill overwrites or extends so that every index of the
window [max(startIndex,0), max(startIndex,0)+count) holds the value, the
sequence growing exactly to max(length, window end); when the start exceeds
the length the appended values land at the end of the sequence instead. -/
theorem C7_fill_amended (arr : List Int) (startIndex num value : Int)
    (hnum : 1 ≤ num) (hstart : max startIndex 0 ≤ (arr.length : Int)) :
    (∀ k : Nat, max startIndex 0 ≤ (k : Int) → (k : Int) < max startIndex 0 + num →
      (IntArray.Fill arr startIndex num value)[k]? = some value) ∧
    ((IntArray.Fill arr startIndex num value).length : Int) =
      max (arr.length : Int) (max startIndex 0 + num) := by
  have hite : (if startIndex < 0 then (0 : Int) else startIndex) = max startIndex 0 := by
    split_ifs <;> omega
  obtain ⟨hA, hB, hC⟩ := IntArray.fillLoop_spec
    (((if startIndex < 0 then (0 : Int) else startIndex) + num).toNat + 1) arr
    ((if startIndex < 0 then (0 : Int) else startIndex)).toNat
    (((if startIndex < 0 then (0 : Int) else startIndex) + num).toNat) value
    (by omega) (by omega)
  constructor
  · intro k hk1 hk2
    simp only [IntArray.Fill]
    exact hC k (by omega) (by omega)
  · simp only [IntArray.Fill]
    rw [hA]
    push_cast
    omega

theorem C7_fill_amended_witness :
    (IntArray.Fill [1, 2] 1 3 9)[2]? = some 9 ∧
    ((IntArray.Fill [1, 2] 1 3 9).length : Int) =
      max ((([1, 2] : List Int).length : Int)) (max 1 0 + 3) :=
  ⟨(C7_fill_amended [1, 2] 1 3 9 (by decide) (by decide)).1 2 (by decide) (by decide),
   (C7_fill_amended [1, 2] 1 3 9 (by decide) (by decide)).2⟩

/-- C8: Pad grows the sequence on the right for positive size and on the
left for negative size with copies of the value until the length reaches
|size|, and is a no-op when |size| does not exceed the current length; the
three examples of the spec hold. -/
theorem C8_pad (arr : List Int) (size value : Int) :
    ((-(arr.length : Int) ≤ size ∧ size ≤ (arr.length : Int)) →
      IntArray.Pad arr size value = arr) ∧
    ((arr.length : Int) < size →
      IntArray.Pad arr size value = arr ++ List.replicate (size - arr.length).toNat value ∧
      ((IntArray.Pad arr size value).length : Int) = size) ∧
    (size < -(arr.length : Int) →
      IntArray.Pad arr size value = List.replicate (-size - arr.length).toNat value ++ arr ∧
      ((IntArray.Pad arr size value).length : Int) = -size) ∧
    IntArray.Pad [1, 2, 3] 7 0 = [1, 2, 3, 0, 0, 0, 0] ∧
    IntArray.Pad [1, 2, 3] (-7) 0 = [0, 0, 0, 0, 1, 2, 3] ∧
    IntArray.Pad [1, 2, 3] 2 0 = [1, 2, 3] := by
  refine ⟨?_, ?_, ?_, by decide, by decide, by decide⟩
  · intro h
    simp only [IntArray.Pad]
    split_ifs <;>
      first
        | rfl
        | (rw [show (-size - (arr.length : Int)).toNat = 0 from by omega]; simp)
        | (rw [show (size - (arr.length : Int)).toNat = 0 from by omega]; simp)
  · intro h
    simp only [IntArray.Pad]
    rw [if_neg (by omega :
        ¬ (size = 0 ∨ (size > 0 ∧ size < (arr.length : Int)) ∨
          (size < 0 ∧ size > -(arr.length : Int)))),
      if_pos (by omega : size > 0),
      show (if size < 0 then -size else size) = size from by split_ifs <;> omega]
    refine ⟨rfl, ?_⟩
    rw [List.length_append, List.length_replicate]
    push_cast
    omega
  · intro h
    simp only [IntArray.Pad]
    rw [if_neg (by omega :
        ¬ (size = 0 ∨ (size > 0 ∧ size < (arr.length : Int)) ∨
          (size < 0 ∧ size > -(arr.length : Int)))),
      if_neg (by omega : ¬ size > 0),
      show (if size < 0 then -size else size) = -size from by split_ifs <;> omega]
    refine ⟨rfl, ?_⟩
    rw [List.length_append, List.length_replicate]
    push_cast
    omega

theorem C8_pad_witness :
    IntArray.Pad [1, 2] 5 7 = [1, 2] ++ List.replicate ((5 : Int) - ([1, 2] : List Int).length).toNat 7 ∧
    IntArray.Pad [1, 2] 1 7 = [1, 2] :=
  ⟨((C8_pad [1, 2] 5 7).2.1 (by decide)).1, (C8_pad [1, 2] 1 7).1 (by decide)⟩

/-- C9: the sorted Unique loop compares positions 0 and 1 before its exit
test can catch an empty array (i == len-1 is 0 == -1 there), an
out-of-range access, so Unique on an empty sorted container faults, and
SetUnique(true) with uniqueness previously off, which calls Unique, faults
too instead of being a no-op. -/
theorem C9_empty_unique_faults (cmpf : String → String → Int) (u : Bool) :
    SortedStringArray.Unique ⟨[], u, cmpf⟩ = none ∧
    SortedStringArray.SetUnique ⟨[], false, cmpf⟩ true = none := by
  constructor <;> rfl

/-- C10: Rands(0) on a non-empty container faults: the loop writes into the
zero-length result buffer at index 0 before its break test runs (for both
the int and the sorted string variants). -/
theorem C10_rands_zero_faults :
    (∀ (arr : List Int) (perm : List Nat), 0 < arr.length → perm.length = arr.length →
      IntArray.Rands arr 0 perm = none) ∧
    (∀ (a : SortedStringArray) (perm : List Nat), 0 < a.array.length →
      perm.length = a.array.length → SortedStringArray.Rands a 0 perm = none) := by
  constructor
  · intro arr perm hlen hperm
    rcases perm with _ | ⟨w, rest⟩
    · rw [List.length_nil] at hperm
      omega
    · simp only [IntArray.Rands]
      rw [if_neg (show ¬ ((0 : Int) > (arr.length : Int)) by omega)]
      rw [if_neg (by omega : ¬ ((0 : Int) < 0))]
      simp [IntArray.randsLoop]
  · intro a perm hlen hperm
    rcases perm with _ | ⟨w, rest⟩
    · rw [List.length_nil] at hperm
      omega
    · simp only [SortedStringArray.Rands]
      rw [if_neg (show ¬ ((0 : Int) > (a.array.length : Int)) by omega)]
      rw [if_neg (by omega : ¬ ((0 : Int) < 0))]
      simp [SortedStringArray.randsLoop]

theorem C10_rands_zero_faults_witness :
    IntArray.Rands [7] 0 [0] = none ∧
    SortedStringArray.Rands ⟨["a"], false, strCompare⟩ 0 [0] = none :=
  ⟨C10_rands_zero_faults.1 [7] [0] (by decide) (by decide),
   C10_rands_zero_faults.2 ⟨["a"], false, strCompare⟩ [0] (by decide) (by decide)⟩
